import Mathlib

/-!
Verification of the Petri-net reachability/analysis core (1-safe nets).

The development shallowly embeds the Python sources:
- `task2_ExplicitReachability/explicit_reachability.py` (enabling, firing, BFS),
- `explicit.py` (the strict variant of `fire`),
- `task3_BddBasedReachability/bdd_reachability.py` (symbolic engine),
- `task4_IlpBddDeadlockDetection/deadlock_detection.py` (ILP deadlock detector),
- `task5_ReachableOptimization/optimization.py` (ILP optimizer with no-good cuts).

Markings (Python `frozenset` of place ids) become `Finset String`.  The external
boolean-decision-diagram engine (the `dd` library) and the external ILP solver
(`pulp`/CBC) are capability collaborators outside the repository; they are
modelled from the specification's contract where their behaviour matters.
-/

namespace PetriNet

/-- A transition of the net: identifier, preset (`inputs`) and postset
(`outputs`), mirroring `Transition` in `pnml_parser.py`. -/
structure Transition where
  tid : String
  inputs : List String
  outputs : List String
deriving DecidableEq, Repr

/-- A place of the net: identifier and initial-token flag, mirroring `Place`
in `pnml_parser.py` (the `inputs`/`outputs` adjacency lists of the Python
class are derived data not needed by the analyzed functions). -/
structure Place where
  pid : String
  marked : Bool
deriving DecidableEq, Repr

/-- The net model: ordered association of places and transitions, mirroring
the `PNModel` dictionaries (Python dicts iterate in insertion order). -/
structure PNModel where
  places : List Place
  transitions : List Transition
deriving DecidableEq, Repr

/-- A marking is a `frozenset` of place identifiers. -/
abbrev Marking := Finset String

/-- The list of place identifiers of the model, in dictionary order. -/
def placeIds (model : PNModel) : List String :=
  model.places.map Place.pid

/-- Embedding of `is_enabled` (task2 `explicit_reachability.py`, lines 26-36):
a transition is enabled iff every input place has a token. -/
def is_enabled (marking : Marking) (t : Transition) : Bool :=
  t.inputs.all (fun p => p ∈ marking)

/-- Embedding of `fire` (task2 `explicit_reachability.py`, lines 39-59):
copy the marking, remove each input place if present (the Python loop guards
`if p in newM` before `newM.remove(p)`), then add every output place. -/
def fire (marking : Marking) (t : Transition) : Marking :=
  t.outputs.foldl (fun s p => insert p s)
    (t.inputs.foldl (fun s p => s.erase p) marking)

/-- Embedding of the `fire` variant in `explicit.py` (lines 17-29): it calls
`newM.remove(p)` unguarded, which raises `KeyError` when the place is absent;
the error is modelled by `none`. -/
def fireStrict (marking : Marking) (t : Transition) : Option Marking :=
  match t.inputs.foldl
      (fun acc p => acc.bind (fun s => if p ∈ s then some (s.erase p) else none))
      (some marking) with
  | none => none
  | some s => some (t.outputs.foldl (fun s p => insert p s) s)

/-- Embedding of `initial_marking` (task2 `explicit_reachability.py`,
lines 66-73): the set of places whose `marked` flag is set. -/
def initial_marking (model : PNModel) : Marking :=
  ((model.places.filter (fun p => p.marked)).map Place.pid).toFinset

lemma foldl_erase_eq (l : List String) (s : Finset String) :
    l.foldl (fun s p => s.erase p) s = s \ l.toFinset := by
  induction l generalizing s with
  | nil => simp
  | cons a l ih =>
      simp only [List.foldl_cons, ih, List.toFinset_cons]
      ext x
      simp only [Finset.mem_sdiff, Finset.mem_erase, Finset.mem_insert]
      tauto

lemma foldl_insert_eq (l : List String) (s : Finset String) :
    l.foldl (fun s p => insert p s) s = s ∪ l.toFinset := by
  induction l generalizing s with
  | nil => simp
  | cons a l ih =>
      simp only [List.foldl_cons, ih, List.toFinset_cons]
      ext x
      simp only [Finset.mem_union, Finset.mem_insert]
      tauto

/-- The task2 `fire` computes removal first, addition second. -/
lemma fire_eq (marking : Marking) (t : Transition) :
    fire marking t = (marking \ t.inputs.toFinset) ∪ t.outputs.toFinset := by
  simp [fire, foldl_erase_eq, foldl_insert_eq]

lemma is_enabled_iff (marking : Marking) (t : Transition) :
    is_enabled marking t = true ↔ ∀ p ∈ t.inputs, p ∈ marking := by
  simp [is_enabled]

/-- When the strict `fire` of `explicit.py` returns a value, the marking had
every input place available along the removal loop; if some input place is
missing it aborts with an error before producing any marking. -/
lemma fireStrict_eq_none_of_missing (marking : Marking) (t : Transition)
    (h : ¬ is_enabled marking t = true) : fireStrict marking t = none := by
  rw [is_enabled_iff] at h
  push_neg at h
  obtain ⟨p, hp, hpm⟩ := h
  have hnone : ∀ (l : List String),
      l.foldl (fun acc q => acc.bind
        (fun s => if q ∈ s then some (s.erase q) else none))
        (none : Option (Finset String)) = none := by
    intro l
    induction l with
    | nil => rfl
    | cons b l ihl => simpa using ihl
  have key : ∀ (l : List String) (s : Finset String), p ∈ l → s ⊆ marking →
      l.foldl (fun acc q => acc.bind
        (fun s => if q ∈ s then some (s.erase q) else none)) (some s) = none := by
    intro l
    induction l with
    | nil => intro s h _; simp at h
    | cons a l ih =>
        intro s hmem hsub
        simp only [List.foldl_cons, Option.some_bind]
        by_cases ha : a ∈ s
        · rw [if_pos ha]
          rcases List.mem_cons.mp hmem with he | hl
          · exact absurd (hsub ha) (he ▸ hpm)
          · exact ih _ hl (fun x hx => hsub (Finset.mem_of_mem_erase hx))
        · rw [if_neg ha]
          exact hnone l
  unfold fireStrict
  rw [key t.inputs marking hp (fun x hx => hx)]

/-- A reachability-graph edge `(source marking, transition id, successor)`. -/
abbrev Edge := Marking × String × Marking

/-- One-step successor relation of the net: fire some enabled transition. -/
def stepRel (model : PNModel) (M M2 : Marking) : Prop :=
  ∃ t ∈ model.transitions, is_enabled M t = true ∧ M2 = fire M t

/-- A marking is reachable when a firing sequence of enabled transitions
leads to it from `M0`. -/
def Reachable (model : PNModel) (M0 M : Marking) : Prop :=
  Relation.ReflTransGen (stepRel model) M0 M

/-- Body of the inner `for tid in model.transitions` loop of
`explicit_reachability` (task2, lines 94-105): on an enabled transition the
edge is always appended, and the successor is enqueued and marked visited
only when it has not been seen before.  The state is
`(visited, queue, edges)`. -/
def stepFold (M : Marking) (st : Finset Marking × List Marking × List Edge)
    (t : Transition) : Finset Marking × List Marking × List Edge :=
  if is_enabled M t then
    let M2 := fire M t
    let edges2 := st.2.2 ++ [(M, t.tid, M2)]
    if M2 ∈ st.1 then (st.1, st.2.1, edges2)
    else (insert M2 st.1, st.2.1 ++ [M2], edges2)
  else st

/-- Identifiers that can ever occur in a marking produced by the loop:
whatever is in the current queue or visited set, plus every output place. -/
def bfsUniv (model : PNModel) (queue : List Marking) (visited : Finset Marking) :
    Finset String :=
  queue.foldr (fun M u => M ∪ u) ∅ ∪ visited.sup id ∪
    model.transitions.foldr (fun t u => t.outputs.toFinset ∪ u) ∅

/-- Fuel that provably dominates the number of iterations of the BFS loop
(the Python loop is `while queue`, which terminates because the state space
is bounded by the powerset of the occurring places; the fuel makes that
bound explicit). -/
def bfsFuel (model : PNModel) (queue : List Marking) (visited : Finset Marking) :
    Nat :=
  2 * (bfsUniv model queue visited).powerset.card + queue.length + 1

/-- The breadth-first worklist loop of `explicit_reachability` (task2,
lines 94-106): dequeue a marking, fire every enabled transition, record each
edge, enqueue first-seen successors.  Structurally recursive on a fuel that
`explicit_reachability` instantiates so that it never runs out. -/
def bfsLoop (model : PNModel) :
    Nat → List Marking → Finset Marking → List Edge → Finset Marking × List Edge
  | 0, _, visited, edges => (visited, edges)
  | fuel + 1, queue, visited, edges =>
    match queue with
    | [] => (visited, edges)
    | M :: rest =>
      let st := model.transitions.foldl (stepFold M) (visited, rest, edges)
      bfsLoop model fuel st.2.1 st.1 st.2.2

/-- Embedding of `explicit_reachability` (task2, lines 76-107): BFS from the
initial marking, returning the visited set and the edge list. -/
def explicit_reachability (model : PNModel) : Finset Marking × List Edge :=
  let M0 := initial_marking model
  bfsLoop model (bfsFuel model [M0] {M0}) [M0] {M0} []

/-- The edges recorded while processing one dequeued marking: one per enabled
transition, in transition-dictionary order, never deduplicated. -/
def edgesOf (M : Marking) (ts : List Transition) : List Edge :=
  (ts.filter (fun t => is_enabled M t)).map (fun t => (M, t.tid, fire M t))

lemma edgesOf_cons_enabled (M : Marking) (t : Transition) (ts : List Transition)
    (h : is_enabled M t = true) :
    edgesOf M (t :: ts) = (M, t.tid, fire M t) :: edgesOf M ts := by
  simp [edgesOf, List.filter_cons, h]

lemma edgesOf_cons_disabled (M : Marking) (t : Transition) (ts : List Transition)
    (h : ¬ is_enabled M t = true) : edgesOf M (t :: ts) = edgesOf M ts := by
  simp [edgesOf, List.filter_cons, h]

/-- Complete characterisation of the inner transition loop: it appends one
edge per enabled transition, and appends to the queue (and inserts into the
visited set) exactly the first-seen successors, each exactly once. -/
lemma foldStep_spec (M : Marking) :
    ∀ (ts : List Transition) (v : Finset Marking) (q : List Marking) (e : List Edge),
    ∃ l : List Marking,
      ts.foldl (stepFold M) (v, q, e) = (v ∪ l.toFinset, q ++ l, e ++ edgesOf M ts) ∧
      l.Nodup ∧ (∀ x ∈ l, x ∉ v) ∧
      (∀ x ∈ l, ∃ t ∈ ts, is_enabled M t = true ∧ x = fire M t) ∧
      (∀ t ∈ ts, is_enabled M t = true → fire M t ∈ v ∪ l.toFinset) := by
  intro ts
  induction ts with
  | nil =>
      intro v q e
      exact ⟨[], by simp [edgesOf], by simp, by simp, by simp, by simp⟩
  | cons t ts ih =>
      intro v q e
      by_cases ht : is_enabled M t = true
      · by_cases hm : fire M t ∈ v
        · have hstep : stepFold M (v, q, e) t = (v, q, e ++ [(M, t.tid, fire M t)]) := by
            simp [stepFold, ht, hm]
          obtain ⟨l, heq, hnd, hnv, hsrc, hcov⟩ := ih v q (e ++ [(M, t.tid, fire M t)])
          refine ⟨l, ?_, hnd, hnv, ?_, ?_⟩
          · rw [List.foldl_cons, hstep, heq, edgesOf_cons_enabled M t ts ht]
            simp
          · exact fun x hx => (hsrc x hx).imp
              (fun t' h => ⟨List.mem_cons_of_mem _ h.1, h.2⟩)
          · intro t' ht' he
            rcases List.mem_cons.mp ht' with rfl | hmem
            · exact Finset.mem_union_left _ hm
            · exact hcov t' hmem he
        · have hstep : stepFold M (v, q, e) t =
              (insert (fire M t) v, q ++ [fire M t], e ++ [(M, t.tid, fire M t)]) := by
            simp [stepFold, ht, hm]
          obtain ⟨l, heq, hnd, hnv, hsrc, hcov⟩ :=
            ih (insert (fire M t) v) (q ++ [fire M t]) (e ++ [(M, t.tid, fire M t)])
          refine ⟨fire M t :: l, ?_, ?_, ?_, ?_, ?_⟩
          · rw [List.foldl_cons, hstep, heq, edgesOf_cons_enabled M t ts ht]
            simp only [Prod.mk.injEq]
            refine ⟨?_, by simp, by simp⟩
            ext x
            simp only [List.toFinset_cons, Finset.mem_union, Finset.mem_insert,
              List.mem_toFinset]
            tauto
          · exact List.nodup_cons.mpr
              ⟨fun hc => hnv _ hc (Finset.mem_insert_self _ _), hnd⟩
          · intro x hx
            rcases List.mem_cons.mp hx with rfl | hl
            · exact hm
            · exact fun hc => hnv x hl (Finset.mem_insert_of_mem hc)
          · intro x hx
            rcases List.mem_cons.mp hx with rfl | hl
            · exact ⟨t, List.mem_cons_self _ _, ht, rfl⟩
            · exact (hsrc x hl).imp (fun t' h => ⟨List.mem_cons_of_mem _ h.1, h.2⟩)
          · intro t' ht' he
            rcases List.mem_cons.mp ht' with rfl | hmem
            · simp
            · have := hcov t' hmem he
              simp only [Finset.mem_union, Finset.mem_insert, List.mem_toFinset,
                List.toFinset_cons] at this ⊢
              tauto
      · have hstep : stepFold M (v, q, e) t = (v, q, e) := by
          simp [stepFold, ht]
        obtain ⟨l, heq, hnd, hnv, hsrc, hcov⟩ := ih v q e
        refine ⟨l, ?_, hnd, hnv, ?_, ?_⟩
        · rw [List.foldl_cons, hstep, heq, edgesOf_cons_disabled M t ts ht]
        · exact fun x hx => (hsrc x hx).imp
            (fun t' h => ⟨List.mem_cons_of_mem _ h.1, h.2⟩)
        · intro t' ht' he
          rcases List.mem_cons.mp ht' with rfl | hmem
          · exact absurd he ht
          · exact hcov t' hmem he

lemma fire_subset (M : Marking) (t : Transition) :
    fire M t ⊆ M ∪ t.outputs.toFinset := by
  rw [fire_eq]
  exact Finset.union_subset_union Finset.sdiff_subset (Finset.Subset.refl _)

lemma subset_foldr_union {x : Marking} :
    ∀ L : List Marking, x ∈ L → x ⊆ L.foldr (fun M u => M ∪ u) ∅ := by
  intro L
  induction L with
  | nil => intro h; simp at h
  | cons a L ih =>
      intro h
      rcases List.mem_cons.mp h with rfl | h
      · exact Finset.subset_union_left
      · exact (ih h).trans Finset.subset_union_right

lemma foldr_union_subset {u : Finset String} :
    ∀ L : List Marking, (∀ x ∈ L, x ⊆ u) →
      L.foldr (fun M s => M ∪ s) ∅ ⊆ u := by
  intro L
  induction L with
  | nil => intro _; simp
  | cons a L ih =>
      intro h
      exact Finset.union_subset (h a (List.mem_cons_self a L))
        (ih (fun x hx => h x (List.mem_cons_of_mem a hx)))

lemma outputs_subset_foldr {t : Transition} :
    ∀ ts : List Transition, t ∈ ts →
      t.outputs.toFinset ⊆ ts.foldr (fun s u => s.outputs.toFinset ∪ u) ∅ := by
  intro ts
  induction ts with
  | nil => intro h; simp at h
  | cons a ts ih =>
      intro h
      rcases List.mem_cons.mp h with rfl | h
      · exact Finset.subset_union_left
      · exact (ih h).trans Finset.subset_union_right

lemma subset_bfsUniv_queue (model : PNModel) {queue : List Marking}
    (visited : Finset Marking) {x : Marking} (hx : x ∈ queue) :
    x ⊆ bfsUniv model queue visited :=
  (subset_foldr_union queue hx).trans
    (Finset.subset_union_left.trans Finset.subset_union_left)

lemma subset_bfsUniv_visited (model : PNModel) (queue : List Marking)
    {visited : Finset Marking} {x : Marking} (hx : x ∈ visited) :
    x ⊆ bfsUniv model queue visited :=
  (Finset.le_sup (f := id) hx).trans
    (Finset.subset_union_right.trans Finset.subset_union_left)

lemma subset_bfsUniv_outputs (model : PNModel) (queue : List Marking)
    (visited : Finset Marking) {t : Transition} (ht : t ∈ model.transitions) :
    t.outputs.toFinset ⊆ bfsUniv model queue visited :=
  (outputs_subset_foldr model.transitions ht).trans Finset.subset_union_right

lemma bfsUniv_subset (model : PNModel) {q1 q2 : List Marking}
    {v1 v2 : Finset Marking}
    (hq : ∀ x ∈ q2, x ⊆ bfsUniv model q1 v1)
    (hv : ∀ x ∈ v2, x ⊆ bfsUniv model q1 v1) :
    bfsUniv model q2 v2 ⊆ bfsUniv model q1 v1 := by
  refine Finset.union_subset (Finset.union_subset ?_ ?_) ?_
  · exact foldr_union_subset q2 hq
  · exact Finset.sup_le (fun x hx => hv x hx)
  · exact Finset.subset_union_right

lemma card_le_powerset_bfsUniv (model : PNModel) (queue : List Marking)
    (visited : Finset Marking) :
    visited.card ≤ (bfsUniv model queue visited).powerset.card := by
  apply Finset.card_le_card
  intro x hx
  exact Finset.mem_powerset.mpr (subset_bfsUniv_visited model queue hx)

/-- Invariant proof of the BFS worklist loop: with sufficient fuel, the loop
returns a visited set that contains the input visited markings, is closed
under firing enabled transitions, and consists only of markings satisfying
any step-closed predicate holding on the input; the edge list records exactly
one edge per visited source and enabled transition. -/
lemma bfsLoop_spec (model : PNModel) (P : Marking → Prop)
    (hP : ∀ M t, P M → t ∈ model.transitions → is_enabled M t = true →
      P (fire M t)) :
    ∀ (fuel : Nat) (queue : List Marking) (visited : Finset Marking)
      (edges : List Edge),
    2 * ((bfsUniv model queue visited).powerset.card - visited.card) +
        queue.length < fuel →
    queue.Nodup →
    (∀ M ∈ queue, M ∈ visited) →
    (∀ M ∈ visited, M ∉ queue → ∀ t ∈ model.transitions,
        is_enabled M t = true → fire M t ∈ visited) →
    (∀ M ∈ visited, P M) →
    (∀ ed : Edge, ed ∈ edges ↔ ed.1 ∈ visited ∧ ed.1 ∉ queue ∧
        ∃ t ∈ model.transitions, is_enabled ed.1 t = true ∧
          ed.2.1 = t.tid ∧ ed.2.2 = fire ed.1 t) →
    ((model.transitions.map Transition.tid).Nodup →
        (edges.map (fun ed => (ed.1, ed.2.1))).Nodup) →
    visited ⊆ (bfsLoop model fuel queue visited edges).1 ∧
    (∀ M ∈ (bfsLoop model fuel queue visited edges).1, P M) ∧
    (∀ M ∈ (bfsLoop model fuel queue visited edges).1,
        ∀ t ∈ model.transitions, is_enabled M t = true →
          fire M t ∈ (bfsLoop model fuel queue visited edges).1) ∧
    (∀ ed : Edge, ed ∈ (bfsLoop model fuel queue visited edges).2 ↔
        ed.1 ∈ (bfsLoop model fuel queue visited edges).1 ∧
        ∃ t ∈ model.transitions, is_enabled ed.1 t = true ∧
          ed.2.1 = t.tid ∧ ed.2.2 = fire ed.1 t) ∧
    ((model.transitions.map Transition.tid).Nodup →
        ((bfsLoop model fuel queue visited edges).2.map
          (fun ed => (ed.1, ed.2.1))).Nodup) := by
  intro fuel
  induction fuel with
  | zero =>
      intro queue visited edges hfuel _ _ _ _ _ _
      exact absurd hfuel (by omega)
  | succ fuel ih =>
      intro queue visited edges hfuel hnd hqv hclosed hvp hE1 hE2
      match queue with
      | [] =>
          rw [show bfsLoop model (fuel + 1) ([] : List Marking) visited edges =
            (visited, edges) from rfl]
          refine ⟨Finset.Subset.refl _, hvp, ?_, ?_, hE2⟩
          · intro M hM t ht he
            exact hclosed M hM (List.not_mem_nil M) t ht he
          · intro ed
            rw [hE1 ed]
            simp only [List.not_mem_nil, not_false_iff, true_and]
      | M :: rest =>
          obtain ⟨l, heq, hlnd, hlnv, hlsrc, hlcov⟩ :=
            foldStep_spec M model.transitions visited rest edges
          have hMv : M ∈ visited := hqv M (List.mem_cons_self M rest)
          have hMrest : M ∉ rest := (List.nodup_cons.mp hnd).1
          have hrestnd : rest.Nodup := (List.nodup_cons.mp hnd).2
          have hunf : bfsLoop model (fuel + 1) (M :: rest) visited edges =
              bfsLoop model fuel (rest ++ l) (visited ∪ l.toFinset)
                (edges ++ edgesOf M model.transitions) := by
            show bfsLoop model fuel
                (List.foldl (stepFold M) (visited, rest, edges)
                  model.transitions).2.1
                (List.foldl (stepFold M) (visited, rest, edges)
                  model.transitions).1
                (List.foldl (stepFold M) (visited, rest, edges)
                  model.transitions).2.2 = _
            rw [heq]
          have hl_not_rest : ∀ x ∈ l, x ∉ rest := fun x hx hc =>
            hlnv x hx (hqv x (List.mem_cons_of_mem M hc))
          have hq2nd : (rest ++ l).Nodup :=
            List.Nodup.append hrestnd hlnd (fun x hx hy => hl_not_rest x hy hx)
          have hqv2 : ∀ x ∈ rest ++ l, x ∈ visited ∪ l.toFinset := by
            intro x hx
            rcases List.mem_append.mp hx with h | h
            · exact Finset.mem_union_left _ (hqv x (List.mem_cons_of_mem M h))
            · exact Finset.mem_union_right _ (List.mem_toFinset.mpr h)
          have hclosed2 : ∀ x ∈ visited ∪ l.toFinset, x ∉ rest ++ l →
              ∀ t ∈ model.transitions, is_enabled x t = true →
                fire x t ∈ visited ∪ l.toFinset := by
            intro x hx hxq t ht he
            rcases Finset.mem_union.mp hx with hxv | hxl
            · by_cases hxM : x = M
              · subst hxM
                exact hlcov t ht he
              · have hxr : x ∉ rest := fun hc =>
                  hxq (List.mem_append.mpr (Or.inl hc))
                have hxnotq : x ∉ M :: rest := by
                  intro hc
                  rcases List.mem_cons.mp hc with h | h
                  · exact hxM h
                  · exact hxr h
                exact Finset.mem_union_left _ (hclosed x hxv hxnotq t ht he)
            · exact absurd
                (List.mem_append.mpr (Or.inr (List.mem_toFinset.mp hxl))) hxq
          have hvp2 : ∀ x ∈ visited ∪ l.toFinset, P x := by
            intro x hx
            rcases Finset.mem_union.mp hx with h | h
            · exact hvp x h
            · obtain ⟨t, ht, he, rfl⟩ := hlsrc x (List.mem_toFinset.mp h)
              exact hP M t (hvp M hMv) ht he
          have hE1b : ∀ ed : Edge,
              ed ∈ edges ++ edgesOf M model.transitions ↔
              ed.1 ∈ visited ∪ l.toFinset ∧ ed.1 ∉ rest ++ l ∧
              ∃ t ∈ model.transitions, is_enabled ed.1 t = true ∧
                ed.2.1 = t.tid ∧ ed.2.2 = fire ed.1 t := by
            intro ed
            constructor
            · intro h
              rcases List.mem_append.mp h with h | h
              · obtain ⟨h1, h2, h3⟩ := (hE1 ed).mp h
                refine ⟨Finset.mem_union_left _ h1, ?_, h3⟩
                intro hc
                rcases List.mem_append.mp hc with hc | hc
                · exact h2 (List.mem_cons_of_mem M hc)
                · exact hlnv ed.1 hc h1
              · simp only [edgesOf, List.mem_map, List.mem_filter] at h
                obtain ⟨t, ⟨htm, hte⟩, hedeq⟩ := h
                subst hedeq
                refine ⟨Finset.mem_union_left _ hMv, ?_, t, htm, hte, rfl, rfl⟩
                intro hc
                rcases List.mem_append.mp hc with hc | hc
                · exact hMrest hc
                · exact hlnv M hc hMv
            · rintro ⟨h1, h2, t, htm, hte, htid, hfire⟩
              rcases Finset.mem_union.mp h1 with hv | hl
              · by_cases hM : ed.1 = M
                · refine List.mem_append.mpr (Or.inr ?_)
                  simp only [edgesOf, List.mem_map, List.mem_filter]
                  refine ⟨t, ⟨htm, by rw [← hM]; exact hte⟩, ?_⟩
                  rw [← hM, ← htid, ← hfire]
                · refine List.mem_append.mpr (Or.inl ?_)
                  refine (hE1 ed).mpr ⟨hv, ?_, t, htm, hte, htid, hfire⟩
                  intro hc
                  rcases List.mem_cons.mp hc with h | h
                  · exact hM h
                  · exact h2 (List.mem_append.mpr (Or.inl h))
              · exact absurd
                  (List.mem_append.mpr (Or.inr (List.mem_toFinset.mp hl))) h2
          have hE2b : (model.transitions.map Transition.tid).Nodup →
              ((edges ++ edgesOf M model.transitions).map
                (fun ed => (ed.1, ed.2.1))).Nodup := by
            intro hw
            rw [List.map_append]
            refine List.Nodup.append (hE2 hw) ?_ ?_
            · have hrw : (edgesOf M model.transitions).map
                  (fun ed => (ed.1, ed.2.1)) =
                  ((model.transitions.filter
                      (fun t => is_enabled M t)).map Transition.tid).map
                    (fun s => (M, s)) := by
                simp only [edgesOf, List.map_map]
                rfl
              rw [hrw]
              refine List.Nodup.map ?_ ?_
              · intro a b hab
                simpa using hab
              · exact List.Nodup.sublist
                  (List.Sublist.map Transition.tid
                    (List.filter_sublist model.transitions)) hw
            · intro p hp hpnew
              obtain ⟨ed, hed, hpe⟩ := List.mem_map.mp hp
              obtain ⟨_, hnq, _⟩ := (hE1 ed).mp hed
              have hedM : ed.1 ≠ M := fun hc =>
                hnq (hc ▸ List.mem_cons_self M rest)
              obtain ⟨ed2, hed2, hpe2⟩ := List.mem_map.mp hpnew
              simp only [edgesOf, List.mem_map, List.mem_filter] at hed2
              obtain ⟨t, _, hed2eq⟩ := hed2
              apply hedM
              have : ed.1 = p.1 := by rw [← hpe]
              rw [this, ← hpe2, ← hed2eq]
          have hksum : (visited ∪ l.toFinset).card =
              visited.card + l.length := by
            rw [Finset.card_union_of_disjoint
              (Finset.disjoint_left.mpr
                (fun a ha hb => hlnv a (List.mem_toFinset.mp hb) ha)),
              List.toFinset_card_of_nodup hlnd]
          have hU2 : bfsUniv model (rest ++ l) (visited ∪ l.toFinset) ⊆
              bfsUniv model (M :: rest) visited := by
            have hfired : ∀ x ∈ l, x ⊆ bfsUniv model (M :: rest) visited := by
              intro x hx
              obtain ⟨t, ht, _, rfl⟩ := hlsrc x hx
              refine (fire_subset M t).trans (Finset.union_subset ?_ ?_)
              · exact subset_bfsUniv_queue model visited
                  (List.mem_cons_self M rest)
              · exact subset_bfsUniv_outputs model (M :: rest) visited ht
            apply bfsUniv_subset
            · intro x hx
              rcases List.mem_append.mp hx with h | h
              · exact subset_bfsUniv_queue model visited
                  (List.mem_cons_of_mem M h)
              · exact hfired x h
            · intro x hx
              rcases Finset.mem_union.mp hx with h | h
              · exact subset_bfsUniv_visited model (M :: rest) h
              · exact hfired x (List.mem_toFinset.mp h)
          have hB2 : (bfsUniv model (rest ++ l)
                (visited ∪ l.toFinset)).powerset.card ≤
              (bfsUniv model (M :: rest) visited).powerset.card :=
            Finset.card_le_card (Finset.powerset_mono.mpr hU2)
          have hvB2 : (visited ∪ l.toFinset).card ≤
              (bfsUniv model (rest ++ l) (visited ∪ l.toFinset)).powerset.card :=
            card_le_powerset_bfsUniv model (rest ++ l) (visited ∪ l.toFinset)
          have hfuel2 : 2 * ((bfsUniv model (rest ++ l)
                (visited ∪ l.toFinset)).powerset.card -
                (visited ∪ l.toFinset).card) + (rest ++ l).length < fuel := by
            have hlen1 : (M :: rest).length = rest.length + 1 :=
              List.length_cons M rest
            have hlen2 : (rest ++ l).length = rest.length + l.length :=
              List.length_append rest l
            omega
          obtain ⟨c1, c2, c3, c4, c5⟩ := ih (rest ++ l) (visited ∪ l.toFinset)
            (edges ++ edgesOf M model.transitions)
            hfuel2 hq2nd hqv2 hclosed2 hvp2 hE1b hE2b
          rw [hunf]
          exact ⟨Finset.Subset.trans Finset.subset_union_left c1,
            c2, c3, c4, c5⟩

/-- Scenario A of the specification: places `p1` (marked) and `p2`, one
transition `t1 : p1 -> p2`. -/
def mdlA : PNModel :=
  ⟨[⟨"p1", true⟩, ⟨"p2", false⟩], [⟨"t1", ["p1"], ["p2"]⟩]⟩

/-- Claim C3: the specification requires `fire` on a disabled transition to
fail fast.  The `explicit.py` variant does (modelled by `fireStrict`
returning `none`), but the task2 `fire` silently skips the missing preset
token and returns the fully fired marking: at the failing input (empty
marking, transition `t1 : p1 -> p2`, disabled) it returns the marking
containing `p2` instead of reporting an error. -/
theorem claim_C3 :
    is_enabled (∅ : Marking) ⟨"t1", ["p1"], ["p2"]⟩ = false ∧
    fire (∅ : Marking) ⟨"t1", ["p1"], ["p2"]⟩ = {"p2"} ∧
    fireStrict (∅ : Marking) ⟨"t1", ["p1"], ["p2"]⟩ = none := by
  decide

/-- Claim C4: for an enabled transition, the task2 `fire` returns the
marking minus the preset union the postset (removal first, addition second),
so every place in both preset and postset ends up marked. -/
theorem claim_C4 (M : Marking) (t : Transition)
    (_h : is_enabled M t = true) :
    fire M t = (M \ t.inputs.toFinset) ∪ t.outputs.toFinset ∧
    ∀ p ∈ t.inputs.toFinset ∩ t.outputs.toFinset, p ∈ fire M t := by
  refine ⟨fire_eq M t, ?_⟩
  intro p hp
  rw [fire_eq]
  exact Finset.mem_union_right _ (Finset.mem_of_mem_inter_right hp)

theorem claim_C4_witness :
    is_enabled ({"p1"} : Marking) ⟨"t1", ["p1"], ["p1", "p2"]⟩ = true ∧
    (fire ({"p1"} : Marking) ⟨"t1", ["p1"], ["p1", "p2"]⟩ =
        (({"p1"} : Marking) \ (["p1"] : List String).toFinset) ∪
          (["p1", "p2"] : List String).toFinset ∧
      ∀ p ∈ (["p1"] : List String).toFinset ∩
          (["p1", "p2"] : List String).toFinset,
        p ∈ fire ({"p1"} : Marking) ⟨"t1", ["p1"], ["p1", "p2"]⟩) :=
  ⟨by decide, claim_C4 {"p1"} ⟨"t1", ["p1"], ["p1", "p2"]⟩ (by decide)⟩

/-- Full characterisation of `explicit_reachability`: the visited set is the
set of reachable markings; the edge list holds one entry per visited source
and enabled transition; when transition ids are unique (a model invariant,
since the Python model keys transitions by id), the `(source, transition)`
pairs of the edge list are pairwise distinct. -/
lemma explicit_spec (model : PNModel) :
    (∀ M, M ∈ (explicit_reachability model).1 ↔
        Reachable model (initial_marking model) M) ∧
    (∀ ed : Edge, ed ∈ (explicit_reachability model).2 ↔
        ed.1 ∈ (explicit_reachability model).1 ∧
        ∃ t ∈ model.transitions, is_enabled ed.1 t = true ∧
          ed.2.1 = t.tid ∧ ed.2.2 = fire ed.1 t) ∧
    ((model.transitions.map Transition.tid).Nodup →
      ((explicit_reachability model).2.map
        (fun ed => (ed.1, ed.2.1))).Nodup) := by
  have hrw : explicit_reachability model =
      bfsLoop model
        (bfsFuel model [initial_marking model] {initial_marking model})
        [initial_marking model] {initial_marking model} [] := rfl
  have hcard : ({initial_marking model} : Finset Marking).card ≤
      (bfsUniv model [initial_marking model]
        {initial_marking model}).powerset.card :=
    card_le_powerset_bfsUniv model _ _
  obtain ⟨c1, c2, c3, c4, c5⟩ :=
    bfsLoop_spec model (Reachable model (initial_marking model))
      (fun M t hM ht he => Relation.ReflTransGen.tail hM ⟨t, ht, he, rfl⟩)
      (bfsFuel model [initial_marking model] {initial_marking model})
      [initial_marking model] {initial_marking model} []
      (by
        simp only [bfsFuel, List.length_cons, List.length_nil,
          Finset.card_singleton] at hcard ⊢
        omega)
      (List.nodup_cons.mpr ⟨List.not_mem_nil _, List.nodup_nil⟩)
      (by
        intro M hM
        rcases List.mem_cons.mp hM with rfl | h
        · exact Finset.mem_singleton_self _
        · exact absurd h (List.not_mem_nil M))
      (by
        intro M hM hMq
        exact absurd (by
          rw [Finset.mem_singleton.mp hM]
          exact List.mem_cons_self _ _) hMq)
      (by
        intro M hM
        rw [Finset.mem_singleton.mp hM]
        exact Relation.ReflTransGen.refl)
      (by
        intro ed
        constructor
        · intro h
          exact absurd h (List.not_mem_nil ed)
        · rintro ⟨h1, h2, _⟩
          exact absurd (by
            rw [Finset.mem_singleton.mp h1]
            exact List.mem_cons_self _ _) h2)
      (fun _ => List.nodup_nil)
  rw [hrw]
  refine ⟨?_, c4, c5⟩
  intro M
  constructor
  · exact c2 M
  · intro h
    induction h with
    | refl => exact c1 (Finset.mem_singleton_self _)
    | tail hab hbc ih =>
        obtain ⟨t, ht, he, rfl⟩ := hbc
        exact c3 _ ih t ht he

/-- Claim C8: the BFS explorer returns exactly the reachable markings; the
edge list contains an entry `(M, tid, M2)` precisely for each visited source
`M` and each enabled transition (so distinct transitions reaching the same
destination all appear), and each `(source, transition)` pair occurs only
once because every marking is enqueued (and hence dequeued) only the first
time it is seen. -/
theorem claim_C8 (model : PNModel)
    (hw : (model.transitions.map Transition.tid).Nodup) :
    (∀ M, M ∈ (explicit_reachability model).1 ↔
        Reachable model (initial_marking model) M) ∧
    (∀ ed : Edge, ed ∈ (explicit_reachability model).2 ↔
        ed.1 ∈ (explicit_reachability model).1 ∧
        ∃ t ∈ model.transitions, is_enabled ed.1 t = true ∧
          ed.2.1 = t.tid ∧ ed.2.2 = fire ed.1 t) ∧
    ((explicit_reachability model).2.map (fun ed => (ed.1, ed.2.1))).Nodup := by
  obtain ⟨h1, h2, h3⟩ := explicit_spec model
  exact ⟨h1, h2, h3 hw⟩

theorem claim_C8_witness :
    (∀ M, M ∈ (explicit_reachability mdlA).1 ↔
        Reachable mdlA (initial_marking mdlA) M) ∧
    (∀ ed : Edge, ed ∈ (explicit_reachability mdlA).2 ↔
        ed.1 ∈ (explicit_reachability mdlA).1 ∧
        ∃ t ∈ mdlA.transitions, is_enabled ed.1 t = true ∧
          ed.2.1 = t.tid ∧ ed.2.2 = fire ed.1 t) ∧
    ((explicit_reachability mdlA).2.map (fun ed => (ed.1, ed.2.1))).Nodup :=
  claim_C8 mdlA (by decide)

/-- The boolean-function universe of the Symbolic Engine: the external BDD
engine with one variable per place represents, canonically up to value
equality, a set of assignments of the place variables; an assignment is the
set of places whose variable is true, so a boolean function over the place
variables is a set of subsets of the declared places. -/
def bddUniv (model : PNModel) : Finset (Finset String) :=
  (placeIds model).toFinset.powerset

/-- The boolean function of a single place variable (`self.bdd.var`):
all assignments in which the variable is true. -/
def bddVar (model : PNModel) (p : String) : Finset (Finset String) :=
  (bddUniv model).filter (fun a => p ∈ a)

/-- Embedding of `SymbolicAnalyzer.marking_to_bdd` (task3, lines 67-90):
the conjunction over every place of the positive literal if the place is
marked and the negative literal otherwise, starting from `bdd.true`. -/
def marking_to_bdd (model : PNModel) (m : Finset String) :
    Finset (Finset String) :=
  (placeIds model).foldl
    (fun acc p => acc ∩
      (if p ∈ m then bddVar model p else bddUniv model \ bddVar model p))
    (bddUniv model)

/-- Embedding of `SymbolicAnalyzer.bdd_to_markings` (task3, lines 92-117).
Modelled from the spec: the external dd library's `pick_iter` is the
specification's "enumerating every satisfying marking", so each satisfying
assignment is enumerated and turned into the marking of its true place
variables (`assignment.get(var_name, False)` over the declared places);
the false function is mapped to the empty set first. -/
def bdd_to_markings (model : PNModel) (node : Finset (Finset String)) :
    Finset (Finset String) :=
  if node = ∅ then ∅
  else node.image (fun a => (placeIds model).toFinset.filter (fun p => p ∈ a))

/-- Embedding of `SymbolicAnalyzer.is_enabled_bdd` (task3, lines 123-143):
conjoin the set with the enabling clause, the conjunction of the preset
variables starting from `bdd.true`. -/
def is_enabled_bdd (model : PNModel) (s : Finset (Finset String))
    (t : Transition) : Finset (Finset String) :=
  s ∩ t.inputs.foldl (fun acc p => acc ∩ bddVar model p) (bddUniv model)

/-- The explicit refiring step inside `SymbolicAnalyzer.compute_image`
(task3, lines 169-187): rebuild the marking from the assignment over the
declared place variables, discard the preset, add the postset. -/
def fireAssignment (model : PNModel) (t : Transition) (a : Finset String) :
    Finset String :=
  t.outputs.foldl (fun s p => insert p s)
    (t.inputs.foldl (fun s p => s.erase p)
      ((placeIds model).toFinset.filter (fun p => p ∈ a)))

/-- Embedding of `SymbolicAnalyzer.compute_image` (task3, lines 145-190):
restrict to the enabled subset, short-circuit on the false function, then
disjoin the re-encoded explicit firing of every satisfying assignment (the
semi-symbolic image; the enumeration of satisfying assignments is modelled
from the spec as in `bdd_to_markings`). -/
def compute_image (model : PNModel) (s : Finset (Finset String))
    (t : Transition) : Finset (Finset String) :=
  if is_enabled_bdd model s t = ∅ then ∅
  else (is_enabled_bdd model s t).biUnion
    (fun a => marking_to_bdd model (fireAssignment model t a))

/-- One iteration of the fixed-point loop of
`SymbolicAnalyzer.compute_reachability` (task3, lines 217-233): union the
current set with the image under every transition. -/
def symStep (model : PNModel) (reach : Finset (Finset String)) :
    Finset (Finset String) :=
  reach ∪ model.transitions.foldl
    (fun acc t => acc ∪ compute_image model reach t) ∅

/-- The fixed-point loop of `compute_reachability`: iterate `symStep` until
the result is value-equal to the previous iterate.  The Python loop is
`while True` with a break on equality; it converges in at most 2^places
iterations (spec section 4.3), so the structural fuel supplied by
`compute_reachability` is never exhausted. -/
def reachLoop (model : PNModel) :
    Nat → Finset (Finset String) → Finset (Finset String)
  | 0, reach => reach
  | fuel + 1, reach =>
    if symStep model reach = reach then reach
    else reachLoop model fuel (symStep model reach)

/-- Embedding of `SymbolicAnalyzer.compute_reachability` (task3,
lines 196-240): start from the encoded initial marking and iterate to the
fixed point. -/
def compute_reachability (model : PNModel) : Finset (Finset String) :=
  reachLoop model ((bddUniv model).card + 1)
    (marking_to_bdd model (initial_marking model))

/-- The exact satisfying-assignment count over all place variables
(`self.bdd.count(reach, len(self.place_vars))`, task3, line 238), i.e. the
size of the canonical set of assignments. -/
def num_reachable (model : PNModel) : Nat :=
  (compute_reachability model).card

lemma mem_foldl_inter {α β : Type} [DecidableEq β] (g : α → Finset β) :
    ∀ (l : List α) (init : Finset β) (a : β),
      a ∈ l.foldl (fun acc p => acc ∩ g p) init ↔
        a ∈ init ∧ ∀ p ∈ l, a ∈ g p := by
  intro l
  induction l with
  | nil => intro init a; simp
  | cons q l ih =>
      intro init a
      rw [List.foldl_cons, ih]
      simp only [Finset.mem_inter, List.mem_cons]
      constructor
      · rintro ⟨⟨h1, h2⟩, h3⟩
        exact ⟨h1, fun p hp => by
          rcases hp with rfl | hp
          · exact h2
          · exact h3 p hp⟩
      · rintro ⟨h1, h2⟩
        exact ⟨⟨h1, h2 q (Or.inl rfl)⟩, fun p hp => h2 p (Or.inr hp)⟩

lemma mem_foldl_union {α β : Type} [DecidableEq β] (g : α → Finset β) :
    ∀ (l : List α) (init : Finset β) (a : β),
      a ∈ l.foldl (fun acc p => acc ∪ g p) init ↔
        a ∈ init ∨ ∃ p ∈ l, a ∈ g p := by
  intro l
  induction l with
  | nil => intro init a; simp
  | cons q l ih =>
      intro init a
      rw [List.foldl_cons, ih]
      simp only [Finset.mem_union, List.mem_cons]
      constructor
      · rintro (⟨h | h⟩ | ⟨p, hp, h⟩)
        · exact Or.inl h
        · exact Or.inr ⟨q, Or.inl rfl, h⟩
        · exact Or.inr ⟨p, Or.inr hp, h⟩
      · rintro (h | ⟨p, rfl | hp, h⟩)
        · exact Or.inl (Or.inl h)
        · exact Or.inl (Or.inr h)
        · exact Or.inr ⟨p, hp, h⟩

lemma mem_bddVar (model : PNModel) (p : String) (a : Finset String) :
    a ∈ bddVar model p ↔ a ∈ bddUniv model ∧ p ∈ a := by
  simp [bddVar]

lemma mem_marking_to_bdd (model : PNModel) (m : Finset String)
    (a : Finset String) :
    a ∈ marking_to_bdd model m ↔
      a ∈ bddUniv model ∧ ∀ p ∈ placeIds model, (p ∈ a ↔ p ∈ m) := by
  unfold marking_to_bdd
  rw [mem_foldl_inter]
  constructor
  · rintro ⟨h1, h2⟩
    refine ⟨h1, fun p hp => ?_⟩
    have := h2 p hp
    by_cases hm : p ∈ m
    · rw [if_pos hm] at this
      exact ⟨fun _ => hm, fun _ => ((mem_bddVar model p a).mp this).2⟩
    · rw [if_neg hm] at this
      rw [Finset.mem_sdiff, mem_bddVar] at this
      exact ⟨fun hc => absurd ⟨h1, hc⟩ this.2, fun hc => absurd hc hm⟩
  · rintro ⟨h1, h2⟩
    refine ⟨h1, fun p hp => ?_⟩
    by_cases hm : p ∈ m
    · rw [if_pos hm, mem_bddVar]
      exact ⟨h1, (h2 p hp).mpr hm⟩
    · rw [if_neg hm, Finset.mem_sdiff, mem_bddVar]
      exact ⟨h1, fun hc => hm ((h2 p hp).mp hc.2)⟩

lemma marking_to_bdd_subset_univ (model : PNModel) (m : Finset String) :
    marking_to_bdd model m ⊆ bddUniv model := by
  intro a ha
  exact ((mem_marking_to_bdd model m a).mp ha).1

lemma marking_to_bdd_singleton (model : PNModel) {m : Finset String}
    (hm : m ⊆ (placeIds model).toFinset) :
    marking_to_bdd model m = {m} := by
  ext a
  rw [mem_marking_to_bdd, Finset.mem_singleton]
  constructor
  · rintro ⟨h1, h2⟩
    ext x
    constructor
    · intro hx
      have hxp : x ∈ (placeIds model).toFinset :=
        Finset.mem_powerset.mp h1 hx
      exact (h2 x (List.mem_toFinset.mp hxp)).mp hx
    · intro hx
      exact (h2 x (List.mem_toFinset.mp (hm hx))).mpr hx
  · rintro rfl
    exact ⟨Finset.mem_powerset.mpr hm, fun p _ => Iff.rfl⟩

lemma filter_mem_of_subset {s : Finset String} {a : Finset String}
    (h : a ⊆ s) : s.filter (fun p => p ∈ a) = a := by
  ext x
  simp only [Finset.mem_filter]
  exact ⟨fun hx => hx.2, fun hx => ⟨h hx, hx⟩⟩

lemma initial_marking_subset (model : PNModel) :
    initial_marking model ⊆ (placeIds model).toFinset := by
  intro x hx
  simp only [initial_marking, List.mem_toFinset, List.mem_map] at hx
  obtain ⟨p, hp, rfl⟩ := hx
  simp only [placeIds, List.mem_toFinset, List.mem_map]
  exact ⟨p, List.mem_of_mem_filter hp, rfl⟩

lemma mem_is_enabled_bdd (model : PNModel) (s : Finset (Finset String))
    (t : Transition) (a : Finset String)
    (hs : ∀ b ∈ s, b ∈ bddUniv model) :
    a ∈ is_enabled_bdd model s t ↔ a ∈ s ∧ is_enabled a t = true := by
  unfold is_enabled_bdd
  rw [Finset.mem_inter, mem_foldl_inter, is_enabled_iff]
  constructor
  · rintro ⟨h1, _, h3⟩
    exact ⟨h1, fun p hp => ((mem_bddVar model p a).mp (h3 p hp)).2⟩
  · rintro ⟨h1, h2⟩
    exact ⟨h1, hs a h1, fun p hp =>
      (mem_bddVar model p a).mpr ⟨hs a h1, h2 p hp⟩⟩

lemma fireAssignment_eq (model : PNModel) (t : Transition) {a : Finset String}
    (ha : a ⊆ (placeIds model).toFinset) :
    fireAssignment model t a = fire a t := by
  unfold fireAssignment fire
  rw [filter_mem_of_subset ha]

lemma fire_mem_bddUniv (model : PNModel) {t : Transition} {a : Finset String}
    (ha : a ⊆ (placeIds model).toFinset)
    (hout : ∀ p ∈ t.outputs, p ∈ placeIds model) :
    fire a t ∈ bddUniv model := by
  show fire a t ∈ (placeIds model).toFinset.powerset
  rw [Finset.mem_powerset, fire_eq]
  refine Finset.union_subset (Finset.sdiff_subset.trans ha) ?_
  intro x hx
  exact List.mem_toFinset.mpr (hout x (List.mem_toFinset.mp hx))

/-- On a canonical set of assignments, the semi-symbolic image is exactly
the set of explicit firings of the enabled member markings. -/
lemma compute_image_eq (model : PNModel) (s : Finset (Finset String))
    (t : Transition) (hs : ∀ b ∈ s, b ∈ bddUniv model)
    (hout : ∀ p ∈ t.outputs, p ∈ placeIds model) :
    compute_image model s t =
      (s.filter (fun a => is_enabled a t)).image (fun a => fire a t) := by
  unfold compute_image
  by_cases hne : is_enabled_bdd model s t = ∅
  · rw [if_pos hne]
    have : s.filter (fun a => is_enabled a t) = ∅ := by
      ext a
      simp only [Finset.mem_filter, Finset.not_mem_empty, iff_false]
      intro hc
      have : a ∈ is_enabled_bdd model s t :=
        (mem_is_enabled_bdd model s t a hs).mpr hc
      rw [hne] at this
      exact absurd this (Finset.not_mem_empty a)
    rw [this, Finset.image_empty]
  · rw [if_neg hne]
    ext b
    rw [Finset.mem_biUnion, Finset.mem_image]
    constructor
    · rintro ⟨a, ha, hb⟩
      obtain ⟨has, hae⟩ := (mem_is_enabled_bdd model s t a hs).mp ha
      have hasub : a ⊆ (placeIds model).toFinset :=
        Finset.mem_powerset.mp (hs a has)
      rw [fireAssignment_eq model t hasub,
        marking_to_bdd_singleton model
          (Finset.mem_powerset.mp (fire_mem_bddUniv model hasub hout)),
        Finset.mem_singleton] at hb
      exact ⟨a, Finset.mem_filter.mpr ⟨has, hae⟩, hb.symm⟩
    · rintro ⟨a, ha, hb⟩
      obtain ⟨has, hae⟩ := Finset.mem_filter.mp ha
      refine ⟨a, (mem_is_enabled_bdd model s t a hs).mpr ⟨has, hae⟩, ?_⟩
      have hasub : a ⊆ (placeIds model).toFinset :=
        Finset.mem_powerset.mp (hs a has)
      rw [fireAssignment_eq model t hasub,
        marking_to_bdd_singleton model
          (Finset.mem_powerset.mp (fire_mem_bddUniv model hasub hout)),
        Finset.mem_singleton]
      exact hb.symm

lemma compute_image_subset_univ (model : PNModel) (s : Finset (Finset String))
    (t : Transition) : compute_image model s t ⊆ bddUniv model := by
  unfold compute_image
  by_cases hne : is_enabled_bdd model s t = ∅
  · rw [if_pos hne]
    exact Finset.empty_subset _
  · rw [if_neg hne]
    intro b hb
    obtain ⟨a, _, hba⟩ := Finset.mem_biUnion.mp hb
    exact marking_to_bdd_subset_univ model _ hba

lemma symStep_subset (model : PNModel) (reach : Finset (Finset String)) :
    symStep model reach ⊆ reach ∪ bddUniv model := by
  unfold symStep
  refine Finset.union_subset Finset.subset_union_left ?_
  intro a ha
  rcases (mem_foldl_union _ model.transitions ∅ a).mp ha with h | ⟨t, _, h⟩
  · exact absurd h (Finset.not_mem_empty a)
  · exact Finset.mem_union_right _ (compute_image_subset_univ model reach t h)

lemma subset_symStep (model : PNModel) (reach : Finset (Finset String)) :
    reach ⊆ symStep model reach :=
  Finset.subset_union_left

/-- With enough fuel the loop reaches a genuine fixed point of `symStep`. -/
lemma reachLoop_fix (model : PNModel) :
    ∀ (fuel : Nat) (reach : Finset (Finset String)),
      (bddUniv model \ reach).card < fuel →
      symStep model (reachLoop model fuel reach) =
        reachLoop model fuel reach := by
  intro fuel
  induction fuel with
  | zero => intro reach h; exact absurd h (by omega)
  | succ fuel ih =>
      intro reach h
      by_cases hfix : symStep model reach = reach
      · rw [show reachLoop model (fuel + 1) reach = reach by
          rw [reachLoop, if_pos hfix]]
        exact hfix
      · rw [show reachLoop model (fuel + 1) reach =
            reachLoop model fuel (symStep model reach) by
          rw [reachLoop, if_neg hfix]]
        apply ih
        have hsub : reach ⊆ symStep model reach := subset_symStep model reach
        have hss : reach ⊂ symStep model reach :=
          hsub.ssubset_of_ne (Ne.symm hfix)
        obtain ⟨x, hx, hxn⟩ := Finset.exists_of_ssubset hss
        have hxu : x ∈ bddUniv model := by
          rcases Finset.mem_union.mp (symStep_subset model reach hx) with
            hc | hc
          · exact absurd hc hxn
          · exact hc
        have hstrict : bddUniv model \ symStep model reach ⊂
            bddUniv model \ reach :=
          (Finset.ssubset_iff_of_subset
            (Finset.sdiff_subset_sdiff (Finset.Subset.refl _) hsub)).mpr
            ⟨x, Finset.mem_sdiff.mpr ⟨hxu, hxn⟩,
              fun hc => (Finset.mem_sdiff.mp hc).2 hx⟩
        have hcard := Finset.card_lt_card hstrict
        omega

lemma reachLoop_supset (model : PNModel) :
    ∀ (fuel : Nat) (reach : Finset (Finset String)),
      reach ⊆ reachLoop model fuel reach := by
  intro fuel
  induction fuel with
  | zero => intro reach; exact Finset.Subset.refl _
  | succ fuel ih =>
      intro reach
      by_cases hfix : symStep model reach = reach
      · rw [show reachLoop model (fuel + 1) reach = reach by
          rw [reachLoop, if_pos hfix]]
      · rw [show reachLoop model (fuel + 1) reach =
            reachLoop model fuel (symStep model reach) by
          rw [reachLoop, if_neg hfix]]
        exact (subset_symStep model reach).trans (ih (symStep model reach))

/-- Canonicity and soundness of the fixed-point iterates: every assignment
in the loop's result is an assignment over the declared places, and is an
explicitly reachable marking. -/
lemma reachLoop_pres (model : PNModel)
    (hwf : ∀ t ∈ model.transitions, ∀ p ∈ t.outputs, p ∈ placeIds model) :
    ∀ (fuel : Nat) (reach : Finset (Finset String)),
      (∀ a ∈ reach, a ∈ bddUniv model) →
      (∀ a ∈ reach, Reachable model (initial_marking model) a) →
      (∀ a ∈ reachLoop model fuel reach, a ∈ bddUniv model) ∧
      (∀ a ∈ reachLoop model fuel reach,
        Reachable model (initial_marking model) a) := by
  intro fuel
  induction fuel with
  | zero => intro reach h1 h2; exact ⟨h1, h2⟩
  | succ fuel ih =>
      intro reach h1 h2
      by_cases hfix : symStep model reach = reach
      · rw [show reachLoop model (fuel + 1) reach = reach by
          rw [reachLoop, if_pos hfix]]
        exact ⟨h1, h2⟩
      · rw [show reachLoop model (fuel + 1) reach =
            reachLoop model fuel (symStep model reach) by
          rw [reachLoop, if_neg hfix]]
        have hstep : ∀ a ∈ symStep model reach,
            a ∈ bddUniv model ∧
              Reachable model (initial_marking model) a := by
          intro a ha
          rcases Finset.mem_union.mp ha with h | h
          · exact ⟨h1 a h, h2 a h⟩
          · rcases (mem_foldl_union _ model.transitions ∅ a).mp h with
              hc | ⟨t, ht, hc⟩
            · exact absurd hc (Finset.not_mem_empty a)
            · rw [compute_image_eq model reach t h1 (hwf t ht)] at hc
              obtain ⟨b, hb, rfl⟩ := Finset.mem_image.mp hc
              obtain ⟨hbr, hbe⟩ := Finset.mem_filter.mp hb
              refine ⟨fire_mem_bddUniv model
                (Finset.mem_powerset.mp (h1 b hbr)) (hwf t ht), ?_⟩
              exact Relation.ReflTransGen.tail (h2 b hbr) ⟨t, ht, hbe, rfl⟩
        exact ih (symStep model reach) (fun a ha => (hstep a ha).1)
          (fun a ha => (hstep a ha).2)

/-- The symbolic fixed point is exactly the canonical encoding of the set of
reachable markings. -/
lemma compute_reachability_iff (model : PNModel)
    (hwf : ∀ t ∈ model.transitions, ∀ p ∈ t.outputs, p ∈ placeIds model) :
    ∀ M, M ∈ compute_reachability model ↔
      Reachable model (initial_marking model) M := by
  have hinit : marking_to_bdd model (initial_marking model) =
      {initial_marking model} :=
    marking_to_bdd_singleton model (initial_marking_subset model)
  have hbound : (bddUniv model \
      marking_to_bdd model (initial_marking model)).card <
      (bddUniv model).card + 1 := by
    have := Finset.card_le_card
      (Finset.sdiff_subset (s := bddUniv model)
        (t := marking_to_bdd model (initial_marking model)))
    omega
  have hfix : symStep model (compute_reachability model) =
      compute_reachability model :=
    reachLoop_fix model ((bddUniv model).card + 1)
      (marking_to_bdd model (initial_marking model)) hbound
  have hM0 : initial_marking model ∈ compute_reachability model := by
    have hsup := reachLoop_supset model ((bddUniv model).card + 1)
      (marking_to_bdd model (initial_marking model))
    exact hsup (by
      rw [hinit]
      exact Finset.mem_singleton_self _)
  obtain ⟨huniv, hsound⟩ := reachLoop_pres model hwf
    ((bddUniv model).card + 1)
    (marking_to_bdd model (initial_marking model))
    (fun a ha => by
      rw [hinit, Finset.mem_singleton] at ha
      rw [ha]
      exact Finset.mem_powerset.mpr (initial_marking_subset model))
    (fun a ha => by
      rw [hinit, Finset.mem_singleton] at ha
      rw [ha]
      exact Relation.ReflTransGen.refl)
  have hclosed : ∀ M ∈ compute_reachability model, ∀ t ∈ model.transitions,
      is_enabled M t = true → fire M t ∈ compute_reachability model := by
    intro M hM t ht he
    have himg : fire M t ∈ compute_image model (compute_reachability model) t := by
      rw [compute_image_eq model (compute_reachability model) t huniv (hwf t ht)]
      exact Finset.mem_image_of_mem _ (Finset.mem_filter.mpr ⟨hM, he⟩)
    have : fire M t ∈ symStep model (compute_reachability model) :=
      Finset.mem_union_right _
        ((mem_foldl_union _ model.transitions ∅ (fire M t)).mpr
          (Or.inr ⟨t, ht, himg⟩))
    rw [hfix] at this
    exact this
  intro M
  constructor
  · exact hsound M
  · intro h
    induction h with
    | refl => exact hM0
    | tail hab hbc ih2 =>
        obtain ⟨t, ht, he, rfl⟩ := hbc
        exact hclosed _ ih2 t ht he

/-- Claim C9: applying one more fixed-point step to the saturated
characteristic function computed by `compute_reachability` — the union of
the function with the disjunction over all transitions of its image — yields
a function value-equal to it. -/
theorem claim_C9 (model : PNModel) :
    compute_reachability model ∪
      model.transitions.foldl
        (fun acc t => acc ∪ compute_image model (compute_reachability model) t)
        ∅ = compute_reachability model := by
  have hbound : (bddUniv model \
      marking_to_bdd model (initial_marking model)).card <
      (bddUniv model).card + 1 := by
    have := Finset.card_le_card
      (Finset.sdiff_subset (s := bddUniv model)
        (t := marking_to_bdd model (initial_marking model)))
    omega
  exact reachLoop_fix model ((bddUniv model).card + 1)
    (marking_to_bdd model (initial_marking model)) hbound

/-- Claim C10: the marking encoding round-trips — `bdd_to_markings` applied
to `marking_to_bdd m` returns the singleton set containing `m` (for `m` a
subset of the model's places), and applied to the false function it returns
the empty set. -/
theorem claim_C10 (model : PNModel) (m : Marking)
    (hm : m ⊆ (placeIds model).toFinset) :
    bdd_to_markings model (marking_to_bdd model m) = {m} ∧
    bdd_to_markings model (∅ : Finset (Finset String)) = ∅ := by
  constructor
  · rw [marking_to_bdd_singleton model hm]
    unfold bdd_to_markings
    rw [if_neg (Finset.singleton_ne_empty m), Finset.image_singleton,
      filter_mem_of_subset hm]
  · simp [bdd_to_markings]

theorem claim_C10_witness :
    ({"p1"} : Marking) ⊆ (placeIds mdlA).toFinset ∧
    (bdd_to_markings mdlA (marking_to_bdd mdlA {"p1"}) = {{"p1"}} ∧
      bdd_to_markings mdlA (∅ : Finset (Finset String)) = ∅) :=
  ⟨by decide, claim_C10 mdlA {"p1"} (by decide)⟩

/-- Claim C1: for a well-formed model (arc endpoints reference declared
places) whose symbolic state-space count is within the extraction ceiling,
the visited set of the Explicit Explorer equals the set of markings
extracted from the Symbolic Engine's fixed point. -/
theorem claim_C1 (model : PNModel)
    (hwf : ∀ t ∈ model.transitions,
      (∀ p ∈ t.inputs, p ∈ placeIds model) ∧
      (∀ p ∈ t.outputs, p ∈ placeIds model))
    (_hsmall : num_reachable model ≤ 1000) :
    (explicit_reachability model).1 =
      bdd_to_markings model (compute_reachability model) := by
  have hout : ∀ t ∈ model.transitions, ∀ p ∈ t.outputs, p ∈ placeIds model :=
    fun t ht => (hwf t ht).2
  have hsym := compute_reachability_iff model hout
  have hexp := (explicit_spec model).1
  have hM0 : initial_marking model ∈ compute_reachability model :=
    (hsym _).mpr Relation.ReflTransGen.refl
  obtain ⟨huniv, _⟩ := reachLoop_pres model hout
    ((bddUniv model).card + 1)
    (marking_to_bdd model (initial_marking model))
    (fun a ha => by
      rw [marking_to_bdd_singleton model (initial_marking_subset model),
        Finset.mem_singleton] at ha
      rw [ha]
      exact Finset.mem_powerset.mpr (initial_marking_subset model))
    (fun a ha => by
      rw [marking_to_bdd_singleton model (initial_marking_subset model),
        Finset.mem_singleton] at ha
      rw [ha]
      exact Relation.ReflTransGen.refl)
  have hext : bdd_to_markings model (compute_reachability model) =
      compute_reachability model := by
    unfold bdd_to_markings
    rw [if_neg (Finset.ne_empty_of_mem hM0)]
    have himg : ∀ a ∈ compute_reachability model,
        (placeIds model).toFinset.filter (fun p => p ∈ a) = a :=
      fun a ha => filter_mem_of_subset (Finset.mem_powerset.mp (huniv a ha))
    calc (compute_reachability model).image
          (fun a => (placeIds model).toFinset.filter (fun p => p ∈ a))
        = (compute_reachability model).image id := Finset.image_congr
          (fun a ha => himg a ha)
      _ = compute_reachability model := Finset.image_id
  rw [hext]
  ext M
  rw [hexp M, hsym M]

theorem claim_C1_witness :
    (∀ t ∈ mdlA.transitions,
      (∀ p ∈ t.inputs, p ∈ placeIds mdlA) ∧
      (∀ p ∈ t.outputs, p ∈ placeIds mdlA)) ∧
    num_reachable mdlA ≤ 1000 ∧
    (explicit_reachability mdlA).1 =
      bdd_to_markings mdlA (compute_reachability mdlA) :=
  ⟨by decide, by decide, claim_C1 mdlA (by decide) (by decide)⟩

/-- Transition record of the Task 4 deadlock detector
(`DeadlockTransition` in `deadlock_detection.py`, lines 30-48). -/
structure DeadlockTransition where
  name : String
  pre : List String
  post : List String
deriving DecidableEq, Repr

/-- A Python dict from place id to token count (0/1), as an association
list; `dget` is dict subscripting — the detector only subscripts keys that
are present. -/
abbrev MarkingDict := List (String × Nat)

/-- Dict lookup `m[p]` (first binding of the key). -/
def dget (m : MarkingDict) (p : String) : Nat :=
  ((m.find? (fun q => q.1 == p)).map Prod.snd).getD 0

/-- The "transition disabled" ILP constraint (task4, lines 140-148): the
tokens on the preset places sum to at most the preset size minus one. -/
def transitionDisabled (m : MarkingDict) (t : DeadlockTransition) : Bool :=
  decide ((t.pre.map (fun p => (dget m p : Int))).sum ≤
    (t.pre.length : Int) - 1)

/-- Embedding of `find_deadlock_with_ilp` (task4 `deadlock_detection.py`,
lines 51-170).  The empty-preset short-circuit (lines 81-82) precedes any
solver construction.  Modelled from the spec: the external ILP solver
(pulp/CBC) is the specification's integer optimization oracle; under the
exactly-one-selector and linking constraints the feasible assignments of
the marking variables are exactly the candidate markings whose non-empty-
preset transitions are all disabled, and the oracle reports a feasible
solution iff one exists (modelled as the first such candidate); the
returned marking is extracted place by place from the marking variables
(lines 167-169). -/
def find_deadlock_with_ilp (places : List String)
    (transitions : List DeadlockTransition)
    (reachable_markings : List MarkingDict) :
    Bool × Option MarkingDict :=
  if transitions.any (fun t => t.pre.isEmpty) then (false, none)
  else
    match reachable_markings.find? (fun m =>
      transitions.all (fun t => t.pre.isEmpty || transitionDisabled m t)) with
    | some m => (true, some (places.map (fun p => (p, dget m p))))
    | none => (false, none)

/-- Claim C5: whenever some transition has an empty preset, the detector
returns `(false, none)` without invoking the solver, whatever the candidate
markings are. -/
theorem claim_C5 (places : List String)
    (transitions : List DeadlockTransition)
    (reachable_markings : List MarkingDict)
    (h : ∃ t ∈ transitions, t.pre = []) :
    find_deadlock_with_ilp places transitions reachable_markings =
      (false, none) := by
  unfold find_deadlock_with_ilp
  rw [if_pos]
  rw [List.any_eq_true]
  obtain ⟨t, ht, hpre⟩ := h
  exact ⟨t, ht, by rw [hpre]; rfl⟩

theorem claim_C5_witness :
    (∃ t ∈ [DeadlockTransition.mk "t0" [] ["p1"]], t.pre = ([] : List String)) ∧
    find_deadlock_with_ilp ["p1"] [DeadlockTransition.mk "t0" [] ["p1"]]
      [[("p1", 1)]] = (false, none) :=
  ⟨by decide, claim_C5 _ _ _ (by decide)⟩

lemma exists_zero_of_disabled (m : MarkingDict) (t : DeadlockTransition)
    (h : transitionDisabled m t = true) : ∃ p ∈ t.pre, dget m p = 0 := by
  have hsum := of_decide_eq_true h
  by_contra hc
  push_neg at hc
  have hge : ∀ l : List String, (∀ p ∈ l, dget m p ≠ 0) →
      (l.length : Int) ≤ (l.map (fun p => (dget m p : Int))).sum := by
    intro l
    induction l with
    | nil => intro _; simp
    | cons a l ih =>
        intro hl
        simp only [List.map_cons, List.sum_cons, List.length_cons]
        have h1 : (1 : Int) ≤ (dget m a : Int) := by
          exact_mod_cast Nat.one_le_iff_ne_zero.mpr
            (hl a (List.mem_cons_self a l))
        have h2 := ih (fun p hp => hl p (List.mem_cons_of_mem a hp))
        push_cast
        omega
  have hlow := hge t.pre hc
  omega

lemma dget_map_keys (f : String → Nat) :
    ∀ (places : List String) (p : String), p ∈ places →
      dget (places.map (fun q => (q, f q))) p = f p := by
  intro places
  induction places with
  | nil => intro p hp; simp at hp
  | cons a rest ih =>
      intro p hp
      by_cases hap : a = p
      · subst hap
        unfold dget
        simp only [List.map_cons]
        rw [List.find?_cons_of_pos _ (by simp)]
        rfl
      · rcases List.mem_cons.mp hp with rfl | hrest
        · exact absurd rfl hap
        · unfold dget
          simp only [List.map_cons]
          rw [List.find?_cons_of_neg _ (by simp [hap])]
          exact ih p hrest

/-- Claim C6: a `(true, m)` answer of the detector means `m` agrees on every
place with one of the supplied candidate markings, and at every transition
(all of which have non-empty presets, by the short-circuit) some preset
place holds no token in `m`, i.e. no transition is enabled at `m`. -/
theorem claim_C6 (places : List String)
    (transitions : List DeadlockTransition)
    (reachable_markings : List MarkingDict) (m : MarkingDict)
    (hpre : ∀ t ∈ transitions, ∀ p ∈ t.pre, p ∈ places)
    (hrun : find_deadlock_with_ilp places transitions reachable_markings =
      (true, some m)) :
    (∃ cand ∈ reachable_markings, ∀ p ∈ places, dget m p = dget cand p) ∧
    (∀ t ∈ transitions, ∃ p ∈ t.pre, dget m p = 0) := by
  unfold find_deadlock_with_ilp at hrun
  by_cases hany : transitions.any (fun t => t.pre.isEmpty) = true
  · rw [if_pos hany] at hrun
    exact absurd (congrArg Prod.fst hrun) (by simp)
  · rw [if_neg hany] at hrun
    cases hfind : reachable_markings.find? (fun c =>
        transitions.all (fun t => t.pre.isEmpty || transitionDisabled c t)) with
    | none => rw [hfind] at hrun; exact absurd (congrArg Prod.fst hrun) (by simp)
    | some cand =>
        rw [hfind] at hrun
        have hcmem : cand ∈ reachable_markings := List.mem_of_find?_eq_some hfind
        have hcall := List.find?_some hfind
        have hm : m = places.map (fun p => (p, dget cand p)) := by
          have := congrArg Prod.snd hrun
          simp only at this
          exact (Option.some.injEq _ _ ▸ this).symm
        have hmval : ∀ p ∈ places, dget m p = dget cand p := by
          intro p hp
          rw [hm, dget_map_keys (fun q => dget cand q) places p hp]
        refine ⟨⟨cand, hcmem, hmval⟩, ?_⟩
        intro t ht
        have hnotempty : t.pre ≠ [] := by
          intro hc
          apply hany
          rw [List.any_eq_true]
          exact ⟨t, ht, by rw [hc]; rfl⟩
        have hdis : transitionDisabled cand t = true := by
          have := List.all_eq_true.mp hcall t ht
          rcases Bool.or_eq_true_iff.mp this with h | h
          · exact absurd (List.isEmpty_iff.mp h) hnotempty
          · exact h
        obtain ⟨p, hp, hp0⟩ := exists_zero_of_disabled cand t hdis
        exact ⟨p, hp, by rw [hmval p (hpre t ht p hp)]; exact hp0⟩

theorem claim_C6_witness :
    (∃ cand ∈ [[("p1", 0)]], ∀ p ∈ ["p1"],
      dget [("p1", 0)] p = dget cand p) ∧
    (∀ t ∈ [DeadlockTransition.mk "t1" ["p1"] []],
      ∃ p ∈ t.pre, dget [("p1", 0)] p = 0) :=
  claim_C6 ["p1"] [DeadlockTransition.mk "t1" ["p1"] []]
    [[("p1", 0)]] [("p1", 0)] (by decide) (by decide)

/-- Candidate marking extracted from the Task 5 ILP: the 0/1 value of each
binary place variable, over the sorted place list. -/
abbrev BinMarking := List Bool

/-- Outcome of one external ILP solve call in `optimize_reachable` (task5,
lines 213-214): an optimal 0/1 assignment of the marking variables, or any
non-`Optimal` terminal status (infeasible, time limit, undefined). -/
inductive SolveOutcome where
  | optimal (m : BinMarking)
  | notOptimal
deriving DecidableEq, Repr

/-- Terminal log message of the solver-failure branch (task5, lines 218-223). -/
def msgNoOptimal : String :=
  "No optimal solution found at this iteration. Stopping optimization."

/-- Terminal log message of the success branch (task5, lines 232-237). -/
def msgAccepted : String :=
  "Candidate marking is consistent with BDD reachable set. Accepted as optimal reachable marking."

/-- Log message emitted when a no-good cut is added (task5, lines 239-243). -/
def msgAddCut : String :=
  "Candidate marking does NOT satisfy BDD reachability. Adding a no-good cut to exclude this marking and re-solving."

/-- Terminal log message of the cut-budget-exhaustion branch (task5,
lines 258-263). -/
def msgMaxCuts : String :=
  "Reached maximum number of cuts. Stopping optimization without a reachable solution."

/-- Value of the no-good cut built for excluded marking `mstar` at a later
assignment `m`: the sum of `1 - M_p` over places marked in `mstar` plus the
sum of `M_p` over places unmarked in `mstar` (task5, lines 245-255). -/
def cutValue (mstar m : BinMarking) : Int :=
  ((mstar.zip m).map (fun pq =>
    if pq.1 then 1 - (if pq.2 then (1 : Int) else 0)
    else (if pq.2 then (1 : Int) else 0))).sum

/-- The no-good-cut constraint: `cutValue mstar m ≥ 1`. -/
def cutSat (mstar m : BinMarking) : Bool :=
  decide (1 ≤ cutValue mstar m)

/-- The refinement loop of `optimize_reachable` (task5, lines 209-263),
abstracted over the two capability collaborators: `solve cuts` runs the
external ILP solver on the state-equation problem extended with the no-good
cuts accumulated in `cuts` (modelled from the spec as an oracle), and
`isReach` is the BDD reachability check (`is_reachable_bdd`).  Each branch
mirrors one return of the Python loop, with the key log messages collected
in order; the fuel is the remaining cut budget (the caller passes
`max_cuts - 1` because the Python loop stops when `cut_count`, incremented
after adding a cut, reaches `max_cuts`). -/
def optimizeLoopAux (solve : List BinMarking → SolveOutcome)
    (isReach : BinMarking → Bool) :
    Nat → List BinMarking → Option BinMarking × List String
  | 0, cuts =>
    match solve cuts with
    | SolveOutcome.notOptimal => (none, [msgNoOptimal])
    | SolveOutcome.optimal m =>
      if isReach m then (some m, [msgAccepted])
      else (none, [msgAddCut, msgMaxCuts])
  | fuel + 1, cuts =>
    match solve cuts with
    | SolveOutcome.notOptimal => (none, [msgNoOptimal])
    | SolveOutcome.optimal m =>
      if isReach m then (some m, [msgAccepted])
      else
        let r := optimizeLoopAux solve isReach fuel (cuts ++ [m])
        (r.1, msgAddCut :: r.2)

/-- Embedding of `optimize_reachable` (task5, lines 142-263): run the
refinement loop with an empty cut list and the configured cut budget. -/
def optimize_reachable (solve : List BinMarking → SolveOutcome)
    (isReach : BinMarking → Bool) (max_cuts : Nat) :
    Option BinMarking × List String :=
  optimizeLoopAux solve isReach (max_cuts - 1) []

/-- The three termination kinds of the refinement loop, following the error
taxonomy of the specification (success, SolverInfeasible/Inconclusive,
RefinementExhausted). -/
inductive TermKind where
  | success
  | solverNotOptimal
  | cutsExhausted
deriving DecidableEq, Repr

/-- Specification-side classifier of which termination the refinement loop
takes, defined by the same recursion as `optimizeLoopAux`. -/
def optimizeLoopKind (solve : List BinMarking → SolveOutcome)
    (isReach : BinMarking → Bool) : Nat → List BinMarking → TermKind
  | 0, cuts =>
    match solve cuts with
    | SolveOutcome.notOptimal => TermKind.solverNotOptimal
    | SolveOutcome.optimal m =>
      if isReach m then TermKind.success else TermKind.cutsExhausted
  | fuel + 1, cuts =>
    match solve cuts with
    | SolveOutcome.notOptimal => TermKind.solverNotOptimal
    | SolveOutcome.optimal m =>
      if isReach m then TermKind.success
      else optimizeLoopKind solve isReach fuel (cuts ++ [m])

lemma optimizeLoop_log (solve : List BinMarking → SolveOutcome)
    (isReach : BinMarking → Bool) :
    ∀ (fuel : Nat) (cuts : List BinMarking),
      (optimizeLoopAux solve isReach fuel cuts).2 ≠ [] ∧
      ((optimizeLoopAux solve isReach fuel cuts).2.getLast? =
          some msgNoOptimal ↔
        optimizeLoopKind solve isReach fuel cuts = TermKind.solverNotOptimal) ∧
      ((optimizeLoopAux solve isReach fuel cuts).2.getLast? =
          some msgMaxCuts ↔
        optimizeLoopKind solve isReach fuel cuts = TermKind.cutsExhausted) ∧
      ((optimizeLoopAux solve isReach fuel cuts).1.isSome = true ↔
        optimizeLoopKind solve isReach fuel cuts = TermKind.success) := by
  have hne1 : msgNoOptimal ≠ msgMaxCuts := by decide
  have hne2 : msgAccepted ≠ msgNoOptimal := by decide
  have hne3 : msgAccepted ≠ msgMaxCuts := by decide
  have hne4 : msgMaxCuts ≠ msgNoOptimal := Ne.symm hne1
  have hlast : ∀ (a : String) (l : List String), l ≠ [] →
      (a :: l).getLast? = l.getLast? := by
    intro a l hl
    obtain ⟨b, l2, rfl⟩ := List.exists_cons_of_ne_nil hl
    exact List.getLast?_cons_cons
  intro fuel
  induction fuel with
  | zero =>
      intro cuts
      unfold optimizeLoopAux optimizeLoopKind
      cases solve cuts with
      | notOptimal => simp [hne1, hne4]
      | optimal m =>
          by_cases hr : isReach m = true
          · simp [hr, hne2, hne3]
          · simp [hr, hne4]
  | succ fuel ih =>
      intro cuts
      unfold optimizeLoopAux optimizeLoopKind
      cases solve cuts with
      | notOptimal => simp [hne1, hne4]
      | optimal m =>
          by_cases hr : isReach m = true
          · simp [hr, hne2, hne3]
          · obtain ⟨hnil, h1, h2, h3⟩ := ih (cuts ++ [m])
            simp only [hr, if_false, Bool.false_eq_true]
            refine ⟨by simp, ?_, ?_, h3⟩
            · rw [hlast _ _ hnil]
              exact h1
            · rw [hlast _ _ hnil]
              exact h2

/-- Claim C2: the optimizer reports cut-budget exhaustion distinctly from a
solver failure (infeasible or otherwise non-optimal): the returned result
carries a log whose terminal message identifies the termination kind, the
two terminal failure messages are different, and exhaustion never produces
the solver-failure message (nor vice versa); a returned marking identifies
success. -/
theorem claim_C2 (solve : List BinMarking → SolveOutcome)
    (isReach : BinMarking → Bool) (max_cuts : Nat) :
    msgNoOptimal ≠ msgMaxCuts ∧
    ((optimize_reachable solve isReach max_cuts).2.getLast? =
        some msgNoOptimal ↔
      optimizeLoopKind solve isReach (max_cuts - 1) [] =
        TermKind.solverNotOptimal) ∧
    ((optimize_reachable solve isReach max_cuts).2.getLast? =
        some msgMaxCuts ↔
      optimizeLoopKind solve isReach (max_cuts - 1) [] =
        TermKind.cutsExhausted) ∧
    ((optimize_reachable solve isReach max_cuts).1.isSome = true ↔
      optimizeLoopKind solve isReach (max_cuts - 1) [] =
        TermKind.success) := by
  obtain ⟨_, h1, h2, h3⟩ := optimizeLoop_log solve isReach (max_cuts - 1) []
  exact ⟨by decide, h1, h2, h3⟩

lemma cutValue_self : ∀ l : BinMarking, cutValue l l = 0 := by
  intro l
  induction l with
  | nil => rfl
  | cons a l ih =>
      unfold cutValue at ih ⊢
      simp only [List.zip_cons_cons, List.map_cons, List.sum_cons, ih]
      cases a <;> simp

lemma ne_of_cutSat {mstar m : BinMarking} (h : cutSat mstar m = true) :
    m ≠ mstar := by
  intro hc
  subst hc
  have := of_decide_eq_true h
  rw [cutValue_self] at this
  omega

/-- Claim C7: once the no-good cut for a spurious marking `mstar` is among
the accumulated cuts, the refinement loop can never again return `mstar`:
assuming the solver honours the cut constraints (any optimal assignment it
returns satisfies every accumulated cut), a successful run from any such
state returns a marking different from `mstar`. -/
theorem claim_C7 (solve : List BinMarking → SolveOutcome)
    (isReach : BinMarking → Bool) (fuel : Nat) (cuts : List BinMarking)
    (mstar m : BinMarking) (log : List String)
    (hsolve : ∀ cs m2, solve cs = SolveOutcome.optimal m2 →
      ∀ c ∈ cs, cutSat c m2 = true)
    (hmem : mstar ∈ cuts)
    (hrun : optimizeLoopAux solve isReach fuel cuts = (some m, log)) :
    m ≠ mstar := by
  induction fuel generalizing cuts log with
  | zero =>
      cases hs : solve cuts with
      | notOptimal => simp [optimizeLoopAux, hs] at hrun
      | optimal m2 =>
          by_cases hr : isReach m2 = true
          · simp only [optimizeLoopAux, hs, hr, if_true] at hrun
            have hm2 : m2 = m := by
              have := congrArg Prod.fst hrun
              simpa using this
            subst hm2
            exact ne_of_cutSat (hsolve cuts m2 hs mstar hmem)
          · simp [optimizeLoopAux, hs, hr] at hrun
  | succ fuel ih =>
      cases hs : solve cuts with
      | notOptimal => simp [optimizeLoopAux, hs] at hrun
      | optimal m2 =>
          by_cases hr : isReach m2 = true
          · simp only [optimizeLoopAux, hs, hr, if_true] at hrun
            have hm2 : m2 = m := by
              have := congrArg Prod.fst hrun
              simpa using this
            subst hm2
            exact ne_of_cutSat (hsolve cuts m2 hs mstar hmem)
          · simp only [optimizeLoopAux, hs, hr, if_false,
              Bool.false_eq_true] at hrun
            have hfst := congrArg Prod.fst hrun
            simp only at hfst
            refine ih (cuts ++ [m2])
              (optimizeLoopAux solve isReach fuel (cuts ++ [m2])).2
              (List.mem_append_left [m2] hmem) ?_
            rw [← hfst]

/-- A concrete solver honouring the cut constraints, used to instantiate
the hypotheses of the no-good-cut theorem. -/
def solveW : List BinMarking → SolveOutcome := fun cs =>
  if cs.all (fun c => cutSat c [true]) then SolveOutcome.optimal [true]
  else SolveOutcome.notOptimal

lemma solveW_spec : ∀ cs m2, solveW cs = SolveOutcome.optimal m2 →
    ∀ c ∈ cs, cutSat c m2 = true := by
  intro cs m2 h c hc
  unfold solveW at h
  cases hall : cs.all (fun c => cutSat c [true]) with
  | false => rw [hall] at h; simp at h
  | true =>
      rw [hall] at h
      simp only [if_true] at h
      cases h
      exact List.all_eq_true.mp hall c hc

theorem claim_C7_witness : ([true] : BinMarking) ≠ [false] :=
  claim_C7 solveW (fun _ => true) 5 [[false]] [false] [true] [msgAccepted]
    solveW_spec (by decide) (by decide)

end PetriNet
